import Mathlib

/-!
Verification of the LMS foreign-function bridge (src/haskell-integration/cbits)
and of the state-synchronization engine its contract describes.

The bridge translation unit `sync_bridge.c` is embedded shallowly: each C
wrapper is a Lean function over an abstract external runtime, returning the
value produced by the external call together with the trace of external calls
it performs, so that pass-through behaviour is a provable statement.

The engine itself (batch processor, result arena, chain verifier) is not part
of the visible fragment; it is modelled from the specification, as noted on
each definition.
-/

namespace LMS

/-! ## Bridge embedding (from src/haskell-integration/cbits/sync_bridge.c) -/

/-- Abstract pointer values crossing the FFI boundary (`void*`, `const void*`). -/
abbrev Ptr := Nat

/-- One call to an externally-implemented (Haskell-side) function, as declared
at the top of sync_bridge.c. -/
inductive ExtCall where
  | processBatch (ops : Ptr) (count : Nat)
  | getResultCount (result : Ptr)
  | getResults (result : Ptr) (out : Ptr) (count : Nat)
  | freeResult (result : Ptr)
deriving DecidableEq, Repr

/-- The externally-implemented runtime behind the four `extern` declarations of
sync_bridge.c.  It may carry hidden state of type `σ`; each entry point maps
the current hidden state and the C arguments to its return value (when the C
type is non-void) and the next hidden state. -/
structure ExternalRuntime (σ : Type) where
  sync_process_batch : σ → Ptr → Nat → Ptr × σ
  sync_get_result_count : σ → Ptr → Nat × σ
  sync_get_results : σ → Ptr → Ptr → Nat → σ
  sync_free_result : σ → Ptr → σ

/-- The C wrapper hs_process_batch from sync_bridge.c: its body is the single
statement `return hs_sync_process_batch(ops, count);`.  The embedding returns
the value, the hidden state after the call, and the trace of external calls
performed. -/
def hs_process_batch {σ : Type} (ext : ExternalRuntime σ) (s : σ)
    (ops : Ptr) (count : Nat) : Ptr × σ × List ExtCall :=
  let r := ext.sync_process_batch s ops count
  (r.1, r.2, [ExtCall.processBatch ops count])

/-- The C wrapper hs_get_result_count from sync_bridge.c: its body is
`return hs_sync_get_result_count(result);`. -/
def hs_get_result_count {σ : Type} (ext : ExternalRuntime σ) (s : σ)
    (result : Ptr) : Nat × σ × List ExtCall :=
  let r := ext.sync_get_result_count s result
  (r.1, r.2, [ExtCall.getResultCount result])

/-- The C wrapper hs_get_results from sync_bridge.c: its body is
`hs_sync_get_results(result, out, count);` (void). -/
def hs_get_results {σ : Type} (ext : ExternalRuntime σ) (s : σ)
    (result : Ptr) (out : Ptr) (count : Nat) : σ × List ExtCall :=
  (ext.sync_get_results s result out count, [ExtCall.getResults result out count])

/-- The C wrapper hs_free_result from sync_bridge.c: its body is
`hs_sync_free_result(result);` (void). -/
def hs_free_result {σ : Type} (ext : ExternalRuntime σ) (s : σ)
    (result : Ptr) : σ × List ExtCall :=
  (ext.sync_free_result s result, [ExtCall.freeResult result])

/-- A caller frame around `hs_free_result`: in C the handle is passed by
value, so the caller's pointer variable after the call is returned alongside
the effects of the call.  The body performs only the call itself. -/
def caller_free_call {σ : Type} (ext : ExternalRuntime σ) (s : σ)
    (var : Ptr) : Ptr × σ × List ExtCall :=
  let r := hs_free_result ext s var
  (var, r.1, r.2)

/-- Two successive calls `hs_free_result(p); hs_free_result(p);` with the
traces concatenated. -/
def hs_free_result_twice {σ : Type} (ext : ExternalRuntime σ) (s : σ)
    (p : Ptr) : σ × List ExtCall :=
  let r1 := hs_free_result ext s p
  let r2 := hs_free_result ext r1.1 p
  (r2.1, r1.2 ++ r2.2)

/-! ## Engine data model

Modelled from the spec (section 3): the engine behind the bridge is not in the
visible fragment, only declared in lms_bridge.h. -/

/-- Modelled from the spec: byte-string values (keys, stored values, expected
values); the concrete byte width is irrelevant to the contract. -/
abbrev Bytes := List Nat

/-- Modelled from the spec: the kind of a state mutation request, with the
optional `value`/`expected` payloads attached to the kinds that use them. -/
inductive OpKind where
  | put (value : Bytes)
  | delete
  | cas (expected : Bytes) (value : Bytes)
deriving DecidableEq, Repr

/-- Modelled from the spec: an Operation `{key, kind, value?, expected?}`,
immutable once submitted. -/
structure Operation where
  key : Bytes
  kind : OpKind
deriving DecidableEq, Repr

/-- Modelled from the spec: the per-key record `{value: bytes, version: u64}`
held in SyncState. -/
structure Entry where
  value : Bytes
  version : Nat
deriving DecidableEq, Repr

/-- Modelled from the spec: SyncState, a mapping from key to `{value, version}`,
represented as an association list. -/
abbrev SyncState := List (Bytes × Entry)

/-- Modelled from the spec: outcome of one operation. -/
inductive Outcome where
  | Applied
  | Conflict
  | NotFound
deriving DecidableEq, Repr

/-- Modelled from the spec: one ResultRow `{key, outcome, new_version?}`. -/
structure ResultRow where
  key : Bytes
  outcome : Outcome
  new_version : Option Nat
deriving DecidableEq, Repr

/-- Modelled from the spec: the ResultArena owning the ordered ResultRows of
one batch. -/
structure ResultArena where
  rows : List ResultRow
deriving DecidableEq, Repr

/-- Modelled from the spec: number of rows, fixed at creation. -/
def ResultArena.count (r : ResultArena) : Nat :=
  r.rows.length

/-- Modelled from the spec: the engine error taxonomy surfaced to callers. -/
inductive EngineError where
  | Empty
  | BufferTooSmall
deriving DecidableEq, Repr

/-- Modelled from the spec: lookup of a key in SyncState. -/
def stLookup : SyncState → Bytes → Option Entry
  | [], _ => none
  | (k', e) :: rest, k => if k' = k then some e else stLookup rest k

/-- Modelled from the spec: write (insert or replace) of a key in SyncState. -/
def stInsert : SyncState → Bytes → Entry → SyncState
  | [], k, e => [(k, e)]
  | (k', e') :: rest, k, e =>
    if k' = k then (k, e) :: rest else (k', e') :: stInsert rest k e

/-- Modelled from the spec: removal of a key from SyncState. -/
def stRemove : SyncState → Bytes → SyncState
  | [], _ => []
  | (k', e') :: rest, k =>
    if k' = k then stRemove rest k else (k', e') :: stRemove rest k

/-- Modelled from the spec (section 4.1): application of a single Operation to
SyncState, producing the next state and the operation's ResultRow.
`Put` writes unconditionally and increments the version (a fresh key starts at
version 1); `Delete` removes a present key (Applied) or reports NotFound;
`CompareAndSwap` succeeds only when the stored value equals `expected`,
otherwise it is a Conflict and the state is untouched (a missing key is a
Conflict, the policy the spec picks). -/
def applyOp (st : SyncState) (op : Operation) : SyncState × ResultRow :=
  match op.kind with
  | OpKind.put v =>
    let newVer := match stLookup st op.key with
      | some e => e.version + 1
      | none => 1
    (stInsert st op.key ⟨v, newVer⟩, ⟨op.key, Outcome.Applied, some newVer⟩)
  | OpKind.delete =>
    match stLookup st op.key with
    | some _ => (stRemove st op.key, ⟨op.key, Outcome.Applied, none⟩)
    | none => (st, ⟨op.key, Outcome.NotFound, none⟩)
  | OpKind.cas expected v =>
    match stLookup st op.key with
    | some e =>
      if e.value = expected then
        (stInsert st op.key ⟨v, e.version + 1⟩,
         ⟨op.key, Outcome.Applied, some (e.version + 1)⟩)
      else
        (st, ⟨op.key, Outcome.Conflict, none⟩)
    | none => (st, ⟨op.key, Outcome.Conflict, none⟩)

/-- Modelled from the spec (section 4.1, step 2-3): the operations of a batch
applied in submission order, accumulating one ResultRow per operation in that
order. -/
def processOps (st : SyncState) : List Operation → SyncState × List ResultRow
  | [] => (st, [])
  | op :: rest =>
    let r := applyOp st op
    let rs := processOps r.1 rest
    (rs.1, r.2 :: rs.2)

/-- Modelled from the spec (section 4.1 contract): `process` fails with
`EngineError.Empty` on an empty batch and otherwise applies the whole batch,
returning the ResultArena and the updated SyncState. -/
def process (st : SyncState) (batch : List Operation) :
    Except EngineError (ResultArena × SyncState) :=
  if batch.isEmpty then
    Except.error EngineError.Empty
  else
    let r := processOps st batch
    Except.ok (⟨r.2⟩, r.1)

/-- Modelled from the spec (section 4.2): `copy_out(buffer, n)` fails with
`BufferTooSmall` when `n < count()` leaving the caller's buffer untouched;
otherwise it copies all rows into the front of the caller-provided storage.
The result is the status together with the caller's buffer after the call. -/
def copy_out (r : ResultArena) (buffer : List ResultRow) (n : Nat) :
    Except EngineError Unit × List ResultRow :=
  if n < r.count then
    (Except.error EngineError.BufferTooSmall, buffer)
  else
    (Except.ok (), r.rows ++ buffer.drop r.rows.length)

/-- Modelled from the spec (section 4.3): `verify_chain` over an ordered
sequence of hashes iterates adjacent pairs with the link verifier `V`
(an external capability), short-circuiting on the first broken link; empty and
single-element chains are trivially true. -/
def verify_chain (V : Bytes → Bytes → Bool) : List Bytes → Bool
  | [] => true
  | [_] => true
  | h1 :: h2 :: rest => V h1 h2 && verify_chain V (h2 :: rest)

/-- State of SyncState after running a list of operations. -/
def stateAfter (st : SyncState) (ops : List Operation) : SyncState :=
  (processOps st ops).1

/-- The rows produced by running a list of operations. -/
def rowsOf (st : SyncState) (ops : List Operation) : List ResultRow :=
  (processOps st ops).2

/-- The version stored for a key, 0 when the key is absent. -/
def ver (st : SyncState) (k : Bytes) : Nat :=
  match stLookup st k with
  | some e => e.version
  | none => 0

/-- A concrete external runtime over hidden state Nat, used to instantiate the
bridge theorems on concrete inputs. -/
def extSample : ExternalRuntime Nat where
  sync_process_batch := fun s ops count => (ops + count, s + 1)
  sync_get_result_count := fun s result => (result + 1, s + 1)
  sync_get_results := fun s _ _ _ => s + 1
  sync_free_result := fun s _ => s + 1

/-- A concrete link verifier used to instantiate the chain theorems on
concrete inputs: a link is valid when the successor hash's byte sum is one
more than the predecessor's. -/
def chainSampleV : Bytes → Bytes → Bool :=
  fun a b => a.sum + 1 == b.sum

/-- The spec's CompareAndSwap scenario batch:
Put(k1, 10), CAS(k1, expected 10, 11), CAS(k1, expected 10, 12). -/
def casBatch : List Operation :=
  [⟨[1], OpKind.put [10]⟩, ⟨[1], OpKind.cas [10] [11]⟩, ⟨[1], OpKind.cas [10] [12]⟩]

/-- A concrete two-operation batch: Put then Delete on the same key. -/
def putDelBatch : List Operation :=
  [⟨[1], OpKind.put [7]⟩, ⟨[1], OpKind.delete⟩]

/-- A concrete delete-free batch: Put then successful CAS on the same key. -/
def noDelBatch : List Operation :=
  [⟨[1], OpKind.put [10]⟩, ⟨[1], OpKind.cas [10] [11]⟩]

/-- A concrete one-row arena. -/
def arena1 : ResultArena :=
  ⟨[⟨[1], Outcome.Applied, some 1⟩]⟩

/-- A concrete two-slot caller buffer. -/
def buf2 : List ResultRow :=
  [⟨[0], Outcome.NotFound, none⟩, ⟨[0], Outcome.NotFound, none⟩]

/-- Operations before a conflicting CAS in the C8 witness. -/
def preB : List Operation :=
  [⟨[1], OpKind.put [10]⟩]

/-- Operations after a conflicting CAS in the C8 witness. -/
def postB : List Operation :=
  [⟨[2], OpKind.put [20]⟩]

/-! ## Helper lemmas -/

lemma process_cons (st : SyncState) (op : Operation) (rest : List Operation) :
    process st (op :: rest) =
      Except.ok (⟨rowsOf st (op :: rest)⟩, stateAfter st (op :: rest)) := rfl

@[simp] lemma stateAfter_nil (st : SyncState) : stateAfter st [] = st := rfl

@[simp] lemma stateAfter_cons (st : SyncState) (o : Operation) (ops : List Operation) :
    stateAfter st (o :: ops) = stateAfter (applyOp st o).1 ops := rfl

@[simp] lemma rowsOf_nil (st : SyncState) : rowsOf st [] = [] := rfl

@[simp] lemma rowsOf_cons (st : SyncState) (o : Operation) (ops : List Operation) :
    rowsOf st (o :: ops) = (applyOp st o).2 :: rowsOf (applyOp st o).1 ops := rfl

@[simp] lemma stateAfter_append (st : SyncState) (a b : List Operation) :
    stateAfter st (a ++ b) = stateAfter (stateAfter st a) b := by
  induction a generalizing st with
  | nil => simp
  | cons o rest ih => simp [ih]

@[simp] lemma rowsOf_append (st : SyncState) (a b : List Operation) :
    rowsOf st (a ++ b) = rowsOf st a ++ rowsOf (stateAfter st a) b := by
  induction a generalizing st with
  | nil => simp
  | cons o rest ih => simp [ih]

@[simp] lemma rowsOf_length (st : SyncState) (ops : List Operation) :
    (rowsOf st ops).length = ops.length := by
  induction ops generalizing st with
  | nil => rfl
  | cons o rest ih => simp [ih]

lemma rowsOf_get (st : SyncState) (ops : List Operation) (i : Nat) (op : Operation)
    (h : ops[i]? = some op) :
    (rowsOf st ops)[i]? = some (applyOp (stateAfter st (ops.take i)) op).2 := by
  induction ops generalizing st i with
  | nil => simp at h
  | cons o rest ih =>
    match i with
    | 0 =>
      simp only [List.getElem?_cons_zero, Option.some.injEq] at h
      subst h
      simp
    | Nat.succ j =>
      simp only [List.getElem?_cons_succ] at h
      simpa using ih (applyOp st o).1 j h

lemma stateAfter_take_succ (st : SyncState) (ops : List Operation) (i : Nat) (op : Operation)
    (h : ops[i]? = some op) :
    stateAfter st (ops.take (i + 1)) = (applyOp (stateAfter st (ops.take i)) op).1 := by
  induction ops generalizing st i with
  | nil => simp at h
  | cons o rest ih =>
    match i with
    | 0 =>
      simp only [List.getElem?_cons_zero, Option.some.injEq] at h
      subst h
      rfl
    | Nat.succ j =>
      simp only [List.getElem?_cons_succ] at h
      simpa using ih (applyOp st o).1 j h

@[simp] lemma stLookup_insert_self (st : SyncState) (k : Bytes) (e : Entry) :
    stLookup (stInsert st k e) k = some e := by
  induction st with
  | nil => simp [stInsert, stLookup]
  | cons p rest ih =>
    obtain ⟨k', e'⟩ := p
    by_cases hk : k' = k
    · simp [stInsert, hk, stLookup]
    · simp [stInsert, hk, stLookup, ih]

lemma stLookup_insert_ne (st : SyncState) (k' k : Bytes) (e : Entry) (h : k' ≠ k) :
    stLookup (stInsert st k' e) k = stLookup st k := by
  induction st with
  | nil => simp [stInsert, stLookup, h]
  | cons p rest ih =>
    obtain ⟨k0, e0⟩ := p
    by_cases hk : k0 = k'
    · subst hk
      simp [stInsert, stLookup, h]
    · simp [stInsert, hk, stLookup, ih]

lemma stLookup_remove_ne (st : SyncState) (k' k : Bytes) (h : k' ≠ k) :
    stLookup (stRemove st k') k = stLookup st k := by
  induction st with
  | nil => simp [stRemove]
  | cons p rest ih =>
    obtain ⟨k0, e0⟩ := p
    by_cases hk : k0 = k'
    · subst hk
      simp [stRemove, stLookup, h, ih]
    · simp [stRemove, hk, stLookup, ih]

lemma stLookup_applyOp_ne (st : SyncState) (op : Operation) (k : Bytes)
    (h : op.key ≠ k) :
    stLookup (applyOp st op).1 k = stLookup st k := by
  obtain ⟨key, kind⟩ := op
  simp only [ne_eq] at h
  cases kind with
  | put v =>
    simp [applyOp, stLookup_insert_ne st key k _ h]
  | delete =>
    cases hl : stLookup st key with
    | some e => simp [applyOp, hl, stLookup_remove_ne st key k h]
    | none => simp [applyOp, hl]
  | cas expected v =>
    cases hl : stLookup st key with
    | some e =>
      by_cases hv : e.value = expected
      · simp [applyOp, hl, hv, stLookup_insert_ne st key k _ h]
      · simp [applyOp, hl, hv]
    | none => simp [applyOp, hl]

lemma ver_applyOp_mono (st : SyncState) (op : Operation) (k : Bytes)
    (h : op.key = k → op.kind ≠ OpKind.delete) :
    ver st k ≤ ver (applyOp st op).1 k := by
  by_cases hk : op.key = k
  · obtain ⟨key, kind⟩ := op
    simp only at hk
    subst hk
    cases kind with
    | put v =>
      cases hl : stLookup st key with
      | some e => simp [applyOp, hl, ver]
      | none => simp [applyOp, hl, ver]
    | delete => exact absurd rfl (fun hh => h rfl hh)
    | cas expected v =>
      cases hl : stLookup st key with
      | some e =>
        by_cases hv : e.value = expected
        · simp [applyOp, hl, hv, ver]
        · simp [applyOp, hl, hv]
      | none => simp [applyOp, hl]
  · rw [ver, ver, stLookup_applyOp_ne st op k hk]

lemma ver_applyOp_applied (st : SyncState) (op : Operation) (k : Bytes)
    (hk : op.key = k) (hnd : op.kind ≠ OpKind.delete)
    (ha : (applyOp st op).2.outcome = Outcome.Applied) :
    ver (applyOp st op).1 k = ver st k + 1 := by
  obtain ⟨key, kind⟩ := op
  simp only at hk hnd
  subst hk
  cases kind with
  | put v =>
    cases hl : stLookup st key with
    | some e => simp [applyOp, hl, ver]
    | none => simp [applyOp, hl, ver]
  | delete => exact absurd rfl hnd
  | cas expected v =>
    cases hl : stLookup st key with
    | some e =>
      by_cases hv : e.value = expected
      · simp [applyOp, hl, hv, ver]
      · exfalso
        simp [applyOp, hl, hv] at ha
    | none =>
      exfalso
      simp [applyOp, hl] at ha

lemma ver_processOps_mono (st : SyncState) (ops : List Operation) (k : Bytes)
    (h : ∀ op ∈ ops, op.key = k → op.kind ≠ OpKind.delete) :
    ver st k ≤ ver (stateAfter st ops) k := by
  induction ops generalizing st with
  | nil => simp
  | cons o rest ih =>
    calc ver st k ≤ ver (applyOp st o).1 k :=
          ver_applyOp_mono st o k (h o (by simp))
    _ ≤ ver (stateAfter (applyOp st o).1 rest) k :=
          ih (applyOp st o).1 (fun op hm => h op (by simp [hm]))

lemma cas_conflict_noop (st : SyncState) (k expected v : Bytes)
    (h : (applyOp st ⟨k, OpKind.cas expected v⟩).2.outcome = Outcome.Conflict) :
    applyOp st ⟨k, OpKind.cas expected v⟩ = (st, ⟨k, Outcome.Conflict, none⟩) := by
  cases hl : stLookup st k with
  | none => simp [applyOp, hl]
  | some e =>
    by_cases hv : e.value = expected
    · exfalso
      simp [applyOp, hl, hv] at h
    · simp [applyOp, hl, hv]

lemma getElem?_append_length {α : Type} (l1 l2 : List α) (j : Nat) :
    (l1 ++ l2)[l1.length + j]? = l2[j]? := by
  induction l1 with
  | nil => simp
  | cons x xs ih =>
    have hidx : xs.length + 1 + j = (xs.length + j) + 1 := by omega
    simp [hidx, ih]

lemma verify_chain_eq_true_iff (V : Bytes → Bytes → Bool) (hs : List Bytes) :
    verify_chain V hs = true ↔
      ∀ i a b, hs[i]? = some a → hs[i + 1]? = some b → V a b = true := by
  induction hs with
  | nil => simp [verify_chain]
  | cons h1 rest ih =>
    cases rest with
    | nil =>
      simp only [verify_chain, true_iff]
      intro i a b _ hb
      simp at hb
    | cons h2 rest2 =>
      rw [verify_chain, Bool.and_eq_true, ih]
      constructor
      · rintro ⟨hv, htail⟩ i a b ha hb
        match i with
        | 0 =>
          simp only [List.getElem?_cons_zero, Option.some.injEq] at ha
          simp only [List.getElem?_cons_succ, List.getElem?_cons_zero,
            Option.some.injEq] at hb
          subst ha
          subst hb
          exact hv
        | Nat.succ j =>
          simp only [List.getElem?_cons_succ] at ha
          exact htail j a b ha (by simpa using hb)
      · intro hall
        refine ⟨hall 0 h1 h2 (by simp) (by simp), ?_⟩
        intro j a b ha hb
        exact hall (j + 1) a b (by simpa using ha) (by simpa using hb)

lemma verify_chain_broken (V : Bytes → Bytes → Bool) (pre : List Bytes)
    (a b : Bytes) (post : List Bytes) (hV : V a b = false) :
    verify_chain V (pre ++ a :: b :: post) = false := by
  cases hvc : verify_chain V (pre ++ a :: b :: post) with
  | false => rfl
  | true =>
    exfalso
    have hall := (verify_chain_eq_true_iff V (pre ++ a :: b :: post)).mp hvc
    have ha : (pre ++ a :: b :: post)[pre.length]? = some a := by
      have := getElem?_append_length pre (a :: b :: post) 0
      simpa using this
    have hb : (pre ++ a :: b :: post)[pre.length + 1]? = some b := by
      have := getElem?_append_length pre (a :: b :: post) 1
      simpa using this
    have := hall pre.length a b ha hb
    rw [hV] at this
    exact Bool.false_ne_true this

/-! ## Claim theorems -/

/-- C1: each of the four bridge wrappers is extensionally equal to its external
counterpart — it returns exactly the external call's value, leaves exactly the
hidden state the external call leaves, and its trace is exactly the single
forwarded call with the caller's arguments, so the bridge adds no buffering,
batching policy, retry logic, or data transformation. -/
theorem bridge_pure_pass_through {σ : Type} (ext : ExternalRuntime σ) (s : σ)
    (ops count result out n p : Nat) :
    hs_process_batch ext s ops count =
      ((ext.sync_process_batch s ops count).1, (ext.sync_process_batch s ops count).2,
        [ExtCall.processBatch ops count]) ∧
    hs_get_result_count ext s result =
      ((ext.sync_get_result_count s result).1, (ext.sync_get_result_count s result).2,
        [ExtCall.getResultCount result]) ∧
    hs_get_results ext s result out n =
      (ext.sync_get_results s result out n, [ExtCall.getResults result out n]) ∧
    hs_free_result ext s p =
      (ext.sync_free_result s p, [ExtCall.freeResult p]) :=
  ⟨rfl, rfl, rfl, rfl⟩

/-- C9: every bridge wrapper is stateless and deterministic as a function of
its arguments and its single external call — the trace of external calls it
performs is independent of the external runtime's hidden state, and the
non-void wrappers return identical results whenever the external function
does. -/
theorem bridge_stateless_deterministic {σ : Type} (ext : ExternalRuntime σ)
    (s1 s2 : σ) (ops count result out n : Nat) :
    (hs_process_batch ext s1 ops count).2.2 = (hs_process_batch ext s2 ops count).2.2 ∧
    (hs_get_result_count ext s1 result).2.2 = (hs_get_result_count ext s2 result).2.2 ∧
    (hs_get_results ext s1 result out n).2 = (hs_get_results ext s2 result out n).2 ∧
    (hs_free_result ext s1 result).2 = (hs_free_result ext s2 result).2 ∧
    ((ext.sync_process_batch s1 ops count).1 = (ext.sync_process_batch s2 ops count).1 →
      (hs_process_batch ext s1 ops count).1 = (hs_process_batch ext s2 ops count).1) ∧
    ((ext.sync_get_result_count s1 result).1 = (ext.sync_get_result_count s2 result).1 →
      (hs_get_result_count ext s1 result).1 = (hs_get_result_count ext s2 result).1) :=
  ⟨rfl, rfl, rfl, rfl, fun h => h, fun h => h⟩

/-- Witness for C9 at a concrete runtime and concrete arguments. -/
theorem bridge_stateless_deterministic_witness :
    (hs_process_batch extSample 0 5 2).2.2 = (hs_process_batch extSample 7 5 2).2.2 ∧
    (hs_process_batch extSample 0 5 2).1 = (hs_process_batch extSample 7 5 2).1 ∧
    (hs_get_result_count extSample 0 4).1 = (hs_get_result_count extSample 7 4).1 := by
  have h := bridge_stateless_deterministic extSample 0 7 5 2 4 3 6
  exact ⟨h.1, h.2.2.2.2.1 (by decide), h.2.2.2.2.2 (by decide)⟩

/-- C10: a single call to hs_free_result with pointer p forwards exactly one
external call hs_sync_free_result with exactly p and performs no other action;
the caller's pointer variable (passed by value) still holds p afterwards, and
a second call forwards a second free unconditionally. -/
theorem free_result_forwards_once {σ : Type} (ext : ExternalRuntime σ) (s : σ)
    (p : Ptr) :
    (hs_free_result ext s p).2 = [ExtCall.freeResult p] ∧
    (hs_free_result ext s p).1 = ext.sync_free_result s p ∧
    (caller_free_call ext s p).1 = p ∧
    (hs_free_result_twice ext s p).2 = [ExtCall.freeResult p, ExtCall.freeResult p] :=
  ⟨rfl, rfl, rfl, rfl⟩

/-- C2: processing a batch fails with Empty exactly when the batch is empty;
every non-empty batch produces a ResultArena (and the updated SyncState) and
never fails. -/
theorem process_empty_iff (st : SyncState) (batch : List Operation) :
    (process st batch = Except.error EngineError.Empty ↔ batch = []) ∧
    (batch ≠ [] →
      process st batch = Except.ok (⟨rowsOf st batch⟩, stateAfter st batch)) := by
  cases batch with
  | nil =>
    exact ⟨by simp [process], by simp⟩
  | cons op rest =>
    refine ⟨?_, fun _ => rfl⟩
    simp [process]

/-- Witness for C2: the empty batch fails with Empty, a concrete one-element
batch succeeds. -/
theorem process_empty_iff_witness :
    process [] [] = Except.error EngineError.Empty ∧
    process [] [⟨[1], OpKind.put [2]⟩] =
      Except.ok (⟨rowsOf [] [⟨[1], OpKind.put [2]⟩]⟩,
        stateAfter [] [⟨[1], OpKind.put [2]⟩]) := by
  have h1 := process_empty_iff ([] : SyncState) ([] : List Operation)
  have h2 := process_empty_iff ([] : SyncState) [⟨[1], OpKind.put [2]⟩]
  exact ⟨h1.1.mpr rfl, h2.2 (by decide)⟩

/-- C5: verify_chain is true on the empty and any single-element sequence; it
is true exactly when every adjacent pair of hashes verifies under the link
verifier, and any broken adjacent link makes the result false regardless of
the links after it. -/
theorem verify_chain_contract (V : Bytes → Bytes → Bool) :
    verify_chain V [] = true ∧
    (∀ h, verify_chain V [h] = true) ∧
    (∀ hs, verify_chain V hs = true ↔
      ∀ i a b, hs[i]? = some a → hs[i + 1]? = some b → V a b = true) ∧
    (∀ pre a b post, V a b = false →
      verify_chain V (pre ++ a :: b :: post) = false) :=
  ⟨rfl, fun _ => rfl, verify_chain_eq_true_iff V,
    fun pre a b post hV => verify_chain_broken V pre a b post hV⟩

/-- Witness for C5: a concrete four-element chain with the middle link broken
is rejected regardless of the final link, and a valid adjacent pair is
extracted from a verified chain. -/
theorem verify_chain_contract_witness :
    verify_chain chainSampleV [] = true ∧
    verify_chain chainSampleV [[5]] = true ∧
    verify_chain chainSampleV ([[1]] ++ [2] :: [9] :: [[4]]) = false ∧
    chainSampleV [1] [2] = true := by
  have h := verify_chain_contract chainSampleV
  refine ⟨h.1, h.2.1 [5], ?_, ?_⟩
  · exact h.2.2.2 [[1]] [2] [9] [[4]] (by decide)
  · exact (h.2.2.1 [[1], [2]]).mp (by decide) 0 [1] [2] (by decide) (by decide)

/-- C7: a non-empty batch of n operations produces a ResultArena with exactly
n rows, and row i is the outcome of operation i applied at the state the
first i operations produced — results are accumulated in submission order. -/
theorem order_preservation (st : SyncState) (batch : List Operation)
    (hne : batch ≠ []) :
    ∃ a st2, process st batch = Except.ok (a, st2) ∧
      a.count = batch.length ∧
      a.rows = rowsOf st batch ∧
      ∀ i op, batch[i]? = some op →
        a.rows[i]? = some (applyOp (stateAfter st (batch.take i)) op).2 := by
  cases batch with
  | nil => exact absurd rfl hne
  | cons op rest =>
    refine ⟨⟨rowsOf st (op :: rest)⟩, stateAfter st (op :: rest),
      process_cons st op rest, ?_, rfl, ?_⟩
    · simp [ResultArena.count]
    · intro i o hi
      exact rowsOf_get st (op :: rest) i o hi

/-- Witness for C7 on a concrete two-operation batch. -/
theorem order_preservation_witness :
    ∃ a st2,
      process [] putDelBatch = Except.ok (a, st2) ∧
      a.count = putDelBatch.length ∧
      a.rows = rowsOf [] putDelBatch ∧
      ∀ i op, putDelBatch[i]? = some op →
        a.rows[i]? = some (applyOp (stateAfter [] (putDelBatch.take i)) op).2 :=
  order_preservation [] putDelBatch (by decide)

/-- C3: for a CompareAndSwap at position i of a batch, run against the state
the first i operations produced: when the stored value equals the expected
value, the row is Applied with the incremented version and the key now holds
the new value at that version; otherwise the row is Conflict and the state
(in particular the key's entry) is left entirely unchanged, also when the key
is absent. -/
theorem cas_semantics (st : SyncState) (ops : List Operation) (i : Nat)
    (k expected v : Bytes) (h : ops[i]? = some ⟨k, OpKind.cas expected v⟩) :
    (∀ e, stLookup (stateAfter st (ops.take i)) k = some e →
      (e.value = expected →
        (rowsOf st ops)[i]? = some ⟨k, Outcome.Applied, some (e.version + 1)⟩ ∧
        stLookup (stateAfter st (ops.take (i + 1))) k = some ⟨v, e.version + 1⟩) ∧
      (e.value ≠ expected →
        (rowsOf st ops)[i]? = some ⟨k, Outcome.Conflict, none⟩ ∧
        stateAfter st (ops.take (i + 1)) = stateAfter st (ops.take i))) ∧
    (stLookup (stateAfter st (ops.take i)) k = none →
      (rowsOf st ops)[i]? = some ⟨k, Outcome.Conflict, none⟩ ∧
      stateAfter st (ops.take (i + 1)) = stateAfter st (ops.take i)) := by
  have hrow := rowsOf_get st ops i _ h
  have hst := stateAfter_take_succ st ops i _ h
  constructor
  · intro e hl
    constructor
    · intro hv
      constructor
      · rw [hrow]
        simp [applyOp, hl, hv]
      · rw [hst]
        simp [applyOp, hl, hv]
    · intro hv
      constructor
      · rw [hrow]
        simp [applyOp, hl, hv]
      · rw [hst]
        simp [applyOp, hl, hv]
  · intro hl
    constructor
    · rw [hrow]
      simp [applyOp, hl]
    · rw [hst]
      simp [applyOp, hl]

/-- Witness for C3: the spec's scenario batch Put, successful CAS, conflicting
CAS — the second CAS conflicts and changes nothing. -/
theorem cas_semantics_witness :
    (rowsOf [] casBatch)[1]? = some ⟨[1], Outcome.Applied, some 2⟩ ∧
    stLookup (stateAfter [] (casBatch.take 2)) [1] = some ⟨[11], 2⟩ ∧
    (rowsOf [] casBatch)[2]? = some ⟨[1], Outcome.Conflict, none⟩ ∧
    stateAfter [] (casBatch.take 3) = stateAfter [] (casBatch.take 2) := by
  have h1 := cas_semantics [] casBatch 1 [1] [10] [11] (by decide)
  have h2 := cas_semantics [] casBatch 2 [1] [10] [12] (by decide)
  have e1 := (h1.1 ⟨[10], 1⟩ (by decide)).1 (by decide)
  have e2 := (h2.1 ⟨[11], 2⟩ (by decide)).2 (by decide)
  exact ⟨e1.1, e1.2, e2.1, e2.2⟩

/-- C6: copying results out fails with BufferTooSmall exactly when the caller
buffer size is below the row count, and then the buffer is untouched (no
partial copy); with a large enough buffer all rows land at the front of the
buffer, the rest of the buffer is untouched, and the operation is repeatable
with the same outcome.  The copy reads only the arena and the buffer, so it
has no effect on SyncState. -/
theorem copy_out_contract (r : ResultArena) (buffer : List ResultRow) (n : Nat) :
    ((copy_out r buffer n).1 = Except.error EngineError.BufferTooSmall ↔ n < r.count) ∧
    (n < r.count → copy_out r buffer n = (Except.error EngineError.BufferTooSmall, buffer)) ∧
    (r.count ≤ n →
      (copy_out r buffer n).1 = Except.ok () ∧
      ((copy_out r buffer n).2).take r.count = r.rows ∧
      ((copy_out r buffer n).2).drop r.count = buffer.drop r.count ∧
      copy_out r ((copy_out r buffer n).2) n = copy_out r buffer n) := by
  by_cases hlt : n < r.count
  · exact ⟨by simp [copy_out, hlt], fun _ => by simp [copy_out, hlt],
      fun hge => absurd hlt (by omega)⟩
  · have hc : r.count = r.rows.length := rfl
    refine ⟨by simp [copy_out, hlt], fun hh => absurd hh hlt, fun _ => ?_⟩
    refine ⟨by simp [copy_out, hlt], ?_, ?_, ?_⟩
    · rw [hc]
      simp [copy_out, hlt, List.take_left]
    · rw [hc]
      simp [copy_out, hlt, List.drop_left]
    · simp [copy_out, hlt, List.drop_left]

/-- Witness for C6: a one-row arena against a two-slot buffer, with a too
small count and a large enough count. -/
theorem copy_out_contract_witness :
    copy_out arena1 buf2 0 = (Except.error EngineError.BufferTooSmall, buf2) ∧
    (copy_out arena1 buf2 2).1 = Except.ok () ∧
    ((copy_out arena1 buf2 2).2).take arena1.count = arena1.rows ∧
    copy_out arena1 ((copy_out arena1 buf2 2).2) 2 = copy_out arena1 buf2 2 := by
  have h0 := copy_out_contract arena1 buf2 0
  have h2 := copy_out_contract arena1 buf2 2
  have k2 := h2.2.2 (by decide)
  exact ⟨h0.2.1 (by decide), k2.1, k2.2.1, k2.2.2.2⟩

/-- C8: every operation of a batch is attempted and recorded (one row per
operation), or none is (the empty batch is rejected before touching state);
a CompareAndSwap that conflicts rolls back nothing — the rows of the other
operations and the final state are exactly those of the batch with the
conflicting operation absent. -/
theorem batch_conflict_independence (st : SyncState) (pre post : List Operation)
    (k expected v : Bytes)
    (hconf : (applyOp (stateAfter st pre) ⟨k, OpKind.cas expected v⟩).2.outcome =
      Outcome.Conflict) :
    rowsOf st (pre ++ ⟨k, OpKind.cas expected v⟩ :: post) =
      rowsOf st pre ++ ⟨k, Outcome.Conflict, none⟩ :: rowsOf (stateAfter st pre) post ∧
    stateAfter st (pre ++ ⟨k, OpKind.cas expected v⟩ :: post) =
      stateAfter st (pre ++ post) ∧
    (rowsOf st (pre ++ ⟨k, OpKind.cas expected v⟩ :: post)).length =
      (pre ++ ⟨k, OpKind.cas expected v⟩ :: post).length ∧
    process st [] = Except.error EngineError.Empty := by
  have hno := cas_conflict_noop (stateAfter st pre) k expected v hconf
  refine ⟨?_, ?_, rowsOf_length _ _, rfl⟩
  · simp [hno]
  · simp [hno]

/-- Witness for C8: a Put, a conflicting CAS, then a Put on another key — the
conflict leaves both Puts applied and only inserts its own Conflict row. -/
theorem batch_conflict_independence_witness :
    rowsOf [] (preB ++ ⟨[1], OpKind.cas [99] [5]⟩ :: postB) =
      rowsOf [] preB ++ ⟨[1], Outcome.Conflict, none⟩ :: rowsOf (stateAfter [] preB) postB ∧
    stateAfter [] (preB ++ ⟨[1], OpKind.cas [99] [5]⟩ :: postB) =
      stateAfter [] (preB ++ postB) := by
  have h := batch_conflict_independence [] preB postB [1] [99] [5] (by decide)
  exact ⟨h.1, h.2.1⟩

/-- C4 counterexample: version(k) is NOT monotonically non-decreasing across
batch-processing steps — after Put, Put the key holds version 2, and after a
further batch Delete, Put it holds version 1. -/
theorem version_monotonic_counterexample :
    process [] [⟨[1], OpKind.put [10]⟩, ⟨[1], OpKind.put [11]⟩] =
      Except.ok (⟨[⟨[1], Outcome.Applied, some 1⟩, ⟨[1], Outcome.Applied, some 2⟩]⟩,
        [([1], ⟨[11], 2⟩)]) ∧
    process [([1], ⟨[11], 2⟩)] [⟨[1], OpKind.delete⟩, ⟨[1], OpKind.put [12]⟩] =
      Except.ok (⟨[⟨[1], Outcome.Applied, none⟩, ⟨[1], Outcome.Applied, some 1⟩]⟩,
        [([1], ⟨[12], 1⟩)]) ∧
    ver [([1], ⟨[11], 2⟩)] [1] = 2 ∧
    ver [([1], ⟨[12], 1⟩)] [1] = 1 :=
  ⟨rfl, rfl, rfl, rfl⟩

/-- C4 amended: version(k) is monotonically non-decreasing across the steps of
any operation sequence that contains no Delete of k, and each Applied Put or
Applied CompareAndSwap on k increments version(k) by exactly one. -/
theorem version_monotonic_amended (st : SyncState) (ops : List Operation) (k : Bytes) :
    ((∀ op ∈ ops, op.key = k → op.kind ≠ OpKind.delete) →
      ∀ i j, i ≤ j →
        ver (stateAfter st (ops.take i)) k ≤ ver (stateAfter st (ops.take j)) k) ∧
    (∀ i op row, ops[i]? = some op → (rowsOf st ops)[i]? = some row →
      op.key = k → op.kind ≠ OpKind.delete → row.outcome = Outcome.Applied →
      ver (stateAfter st (ops.take (i + 1))) k =
        ver (stateAfter st (ops.take i)) k + 1) := by
  constructor
  · intro hnd i j hij
    have hj : j = i + (j - i) := by omega
    have hsplit : ops.take j = ops.take i ++ (ops.drop i).take (j - i) := by
      nth_rewrite 1 [hj]
      rw [List.take_add]
    rw [hsplit, stateAfter_append]
    apply ver_processOps_mono
    intro op hm
    exact hnd op (List.drop_subset _ _ (List.take_subset _ _ hm))
  · intro i op row hop hrow hk hnd hA
    have hg := rowsOf_get st ops i op hop
    rw [hrow] at hg
    have hrow2 : row = (applyOp (stateAfter st (ops.take i)) op).2 :=
      Option.some.inj hg
    rw [stateAfter_take_succ st ops i op hop]
    apply ver_applyOp_applied _ op k hk hnd
    rw [← hrow2]
    exact hA

/-- Witness for the amended C4 on a concrete delete-free batch. -/
theorem version_monotonic_amended_witness :
    ver (stateAfter [] (noDelBatch.take 0)) [1] ≤
      ver (stateAfter [] (noDelBatch.take 2)) [1] ∧
    ver (stateAfter [] (noDelBatch.take 1)) [1] =
      ver (stateAfter [] (noDelBatch.take 0)) [1] + 1 := by
  have h := version_monotonic_amended [] noDelBatch [1]
  refine ⟨h.1 (by decide) 0 2 (by omega), ?_⟩
  exact h.2 0 ⟨[1], OpKind.put [10]⟩ ⟨[1], Outcome.Applied, some 1⟩
    (by decide) (by decide) rfl (by decide) rfl

end LMS
